import Mathlib

/-!
Shallow embedding of the unused-dependency pruning engine of `cmd/tidy.go`
from the pigo repository (the `tidy` command).

Modelling conventions:
Go strings are modelled as lists of characters (`GoStr`); Go maps used as
sets are modelled as lists with membership, and the metadata map as an
association list. Character classes of the Go / embedded-Python code
(whitespace for `strings.TrimSpace` / `str.strip`, the comparator pattern
of `parsePackageName`) are modelled on the ASCII range the manifests use.
The external Python interpreter invocation is modelled as a pure function:
the installed-distribution database is a parameter `env`, and a failed
invocation is the `none` case of `pkgInfoAfterFetch`.
-/

namespace Pigo

/-- Go strings, modelled as lists of characters. -/
abbrev GoStr := List Char

/-- Helper turning a Lean string literal into a `GoStr`. -/
def str (s : String) : GoStr := s.toList

/-- Whitespace recognised by `strings.TrimSpace` (and Python `str.strip`),
on the ASCII range. -/
def isSpaceChar (c : Char) : Bool :=
  c = ' ' || c = '\t' || c = '\n' || c = '\x0b' || c = '\x0c' || c = '\r'

/-- strings.TrimSpace: drop leading and trailing whitespace. -/
def trimSpace (s : GoStr) : GoStr :=
  (((s.dropWhile isSpaceChar).reverse).dropWhile isSpaceChar).reverse

/-- Characters of the comparator pattern `[<>=~;]+` used by
`parsePackageName` (cmd/tidy.go line 192). -/
def isCompChar (c : Char) : Bool :=
  c = '<' || c = '>' || c = '=' || c = '~' || c = ';'

/-- parsePackageName (cmd/tidy.go lines 184-200): cut the line at the first
`'#'` (strings.Index + slice), trim, return empty for a blank result,
otherwise take the prefix before the first comparator character
(`regexp.Split` on `[<>=~;]+` with limit 2 yields exactly that prefix as
parts[0]), trim it, and strip a bracketed extras suffix when one occurs. -/
def parsePackageName (line : GoStr) : GoStr :=
  let l1 := line.takeWhile (fun c => c ≠ '#')
  let l2 := trimSpace l1
  if l2 = [] then []
  else
    let pkgName := trimSpace (l2.takeWhile (fun c => !(isCompChar c)))
    if '[' ∈ pkgName then trimSpace (pkgName.takeWhile (fun c => c ≠ '[')) else pkgName

/-- getRootModule (cmd/tidy.go lines 202-205): `strings.Split(m, ".")[0]`,
the prefix of the module path before its first dot. -/
def getRootModule (moduleName : GoStr) : GoStr :=
  moduleName.takeWhile (fun c => c ≠ '.')

/-- strings.ToLower, characterwise on the ASCII range. -/
def toLowerStr (s : GoStr) : GoStr := s.map Char.toLower

/-- strings.EqualFold, modelled as equality of the lower-cased strings. -/
def eqFold (a b : GoStr) : Bool := toLowerStr a == toLowerStr b

/-- PkgMeta (cmd/tidy.go lines 28-31): a package's import surface and its
declared direct requirements, as returned by the metadata resolver. -/
structure PkgMeta where
  importNames : List GoStr
  requires : List GoStr
deriving DecidableEq

/-- defaultIgnoreList (cmd/tidy.go lines 34-39): the fixed development-tooling
allow-list; a set of package names, modelled as a list with membership. -/
def defaultIgnoreList : List GoStr :=
  [str "pytest", str "black", str "flake8", str "mypy",
   str "pylint", str "ipython", str "gunicorn", str "uvicorn",
   str "wheel", str "setuptools", str "pip", str "tox",
   str "pre-commit", str "poetry"]

/-- Lookup in the metadata map `pkgInfoMap` (Go map access
`pkgInfoMap[pkgName]`), modelled on an association list. -/
def lookupMeta (info : List (GoStr × PkgMeta)) (k : GoStr) : Option PkgMeta :=
  (info.find? (fun e => e.1 == k)).map (fun e => e.2)

/-- The directly-used test shared by the protection pass (cmd/tidy.go
lines 313-319) and the pruning decision (lines 344-349): some member of
the import surface, or the root module of some member, is in
`importedSet`. -/
def surfaceUsed (importedSet : List GoStr) (meta : PkgMeta) : Bool :=
  meta.importNames.any (fun n => importedSet.contains n || importedSet.contains (getRootModule n))

/-- Construction of `protectedDeps` (cmd/tidy.go lines 310-326): for every
metadata entry that is directly used, all of its declared requirements are
added lower-cased. -/
def buildProtected (info : List (GoStr × PkgMeta)) (importedSet : List GoStr) : List GoStr :=
  (info.filter (fun e => surfaceUsed importedSet e.2)).flatMap
    (fun e => e.2.requires.map toLowerStr)

/-- The per-line outcome of the pruning engine. -/
inductive Decision where
  | keep
  | remove
deriving DecidableEq

/-- The pruning decision for one manifest line (the loop body at
cmd/tidy.go lines 332-371): blank and allow-listed lines are kept; a line
with a metadata entry is tested against that entry's import surface, one
without is tested for literal membership in `importedSet`; lines still
unused are tested against `protectedDeps` on the lower-cased name, and
finally against every imported name case-insensitively. -/
def decideLine (info : List (GoStr × PkgMeta)) (importedSet protectedDeps : List GoStr)
    (line : GoStr) : Decision :=
  let pkgName := parsePackageName line
  let pkgLower := toLowerStr pkgName
  if pkgName == [] || defaultIgnoreList.contains pkgLower then Decision.keep
  else
    let isUsed1 : Bool :=
      match lookupMeta info pkgName with
      | some meta => surfaceUsed importedSet meta
      | none => importedSet.contains pkgName
    let isUsed2 := isUsed1 || protectedDeps.contains pkgLower
    let isUsed3 := isUsed2 || importedSet.any (fun imported => eqFold imported pkgName)
    if isUsed3 then Decision.keep else Decision.remove

/-- The pruning loop over all manifest lines (cmd/tidy.go lines 329-377):
kept lines are appended verbatim to `newLines` in order, removed lines are
counted. -/
def pruneLines (info : List (GoStr × PkgMeta)) (importedSet protectedDeps : List GoStr) :
    List GoStr → List GoStr × Nat
  | [] => ([], 0)
  | l :: ls =>
    let rest := pruneLines info importedSet protectedDeps ls
    match decideLine info importedSet protectedDeps l with
    | Decision.keep => (l :: rest.1, rest.2)
    | Decision.remove => (rest.1, rest.2 + 1)

/-- The rewrite condition (cmd/tidy.go line 379): the manifest file is
recreated only when `removedCount > 0`. -/
def shouldWrite (removedCount : Nat) : Bool := decide (0 < removedCount)

/-- One insertion step of the source scan (cmd/tidy.go lines 301-304): an
external import contributes both its root module and its literal dotted
path to `importedSet`. -/
def insertImport (importedSet : List GoStr) (m : GoStr) : List GoStr :=
  importedSet ++ [getRootModule m, m]

/-- The whole source scan over the external module paths seen in the tree
(cmd/tidy.go lines 289-307), starting from the empty set. -/
def buildImportedSet (externalModules : List GoStr) : List GoStr :=
  List.foldl insertImport [] externalModules

/-- `importedSet` is closed under taking root modules. -/
def rootClosed (s : List GoStr) : Prop :=
  ∀ m ∈ s, getRootModule m ∈ s

instance (s : List GoStr) : Decidable (rootClosed s) :=
  List.decidableBAll (fun m => getRootModule m ∈ s) s

/-- Splitting a byte stream at every `'\n'` (the chunks never contain a
newline; a trailing newline yields a final empty chunk). -/
def splitNl : GoStr → List GoStr
  | [] => [[]]
  | c :: cs =>
    if c = '\n' then [] :: splitNl cs
    else
      match splitNl cs with
      | [] => [[c]]
      | r :: rs => (c :: r) :: rs

/-- dropCR of bufio.ScanLines: strip one trailing `'\r'` from a token. -/
def dropCR (l : GoStr) : GoStr :=
  if l.getLast? = some '\r' then l.dropLast else l

/-- bufio.Scanner with ScanLines (the manifest read loop, cmd/tidy.go
lines 257-265): tokens are the newline-separated chunks without their
terminators, a final token is produced even without a trailing newline,
empty input produces no tokens. -/
def scanLines (content : GoStr) : List GoStr :=
  if content = [] then []
  else if content.getLast? = some '\n' then ((splitNl content).dropLast).map dropCR
  else (splitNl content).map dropCR

/-- The manifest rewrite (cmd/tidy.go lines 385-389): `fmt.Fprintln` emits
every kept line followed by one `'\n'`. -/
def writeOut (newLines : List GoStr) : GoStr :=
  newLines.flatMap (fun l => l ++ ['\n'])

/-- Collection of `reqPackages` (cmd/tidy.go lines 257-265): the parsed
name of every line, skipping lines whose parsed name is empty. -/
def buildReqPackages (lines : List GoStr) : List GoStr :=
  lines.filterMap (fun line =>
    let p := parsePackageName line
    if p = [] then none else some p)

/-- Installed-distribution metadata visible to the embedded Python script:
the split content of `top_level.txt` (empty when the file is missing or
empty) and the raw declared requirement specifiers. -/
structure DistInfo where
  topLevel : List GoStr
  requires : List GoStr
deriving DecidableEq

/-- parse_req_name of the embedded Python script (cmd/tidy.go lines 48-53):
the prefix of the specifier before the first of `(`, `;`, `<`, `>`, `=`,
stripped and lower-cased. -/
def parseReqName (req : GoStr) : GoStr :=
  toLowerStr (trimSpace (req.takeWhile
    (fun c => !(c = '(' || c = ';' || c = '<' || c = '>' || c = '='))))

/-- Python `pkg.lower().replace('-', '_')`. -/
def underscoreLower (s : GoStr) : GoStr :=
  (toLowerStr s).map (fun c => if c = '-' then '_' else c)

/-- Resolution of one manifest name by the embedded Python script
(cmd/tidy.go lines 55-91): the extras suffix is stripped before the
distribution lookup; an installed distribution yields its `top_level.txt`
surface (falling back to the underscored lower-cased name) and its parsed
requirement names; a missing distribution yields the guessed surface
`[underscored name, raw name]` and no requirements. -/
def resolveOne (env : GoStr → Option DistInfo) (pkgRaw : GoStr) : PkgMeta :=
  let pkg := trimSpace (pkgRaw.takeWhile (fun c => c ≠ '['))
  match env pkg with
  | some d =>
    { importNames := if d.topLevel = [] then [underscoreLower pkg] else d.topLevel
      requires := (d.requires.map parseReqName).filter (fun n => n ≠ []) }
  | none => { importNames := [underscoreLower pkg, pkg], requires := [] }

/-- fetchPackageInfo (cmd/tidy.go lines 207-230) composed with the embedded
Python script: the returned map holds one entry per requested name, keyed
by the name exactly as requested (`result[pkg_raw] = info`, line 89). -/
def fetchPackageInfo (env : GoStr → Option DistInfo) (packageNames : List GoStr) :
    List (GoStr × PkgMeta) :=
  packageNames.map (fun raw => (raw, resolveOne env raw))

/-- The error handling around the metadata fetch (cmd/tidy.go lines
268-273): a failed fetch is replaced by the empty map and the run
continues. -/
def pkgInfoAfterFetch (fetched : Option (List (GoStr × PkgMeta))) : List (GoStr × PkgMeta) :=
  fetched.getD []

/-! Helper lemmas shared by several claims. -/

/-- Membership survives trimming. -/
theorem mem_trimSpace {x : Char} {s : GoStr} (h : x ∈ trimSpace s) : x ∈ s := by
  unfold trimSpace at h
  rw [List.mem_reverse] at h
  have h1 := (List.dropWhile_sublist isSpaceChar).subset h
  rw [List.mem_reverse] at h1
  exact (List.dropWhile_sublist isSpaceChar).subset h1

/-- The parsed package name of a manifest line never contains an opening
bracket: the extras suffix is stripped by the parser itself. -/
theorem parsePackageName_no_bracket (line : GoStr) : '[' ∉ parsePackageName line := by
  unfold parsePackageName
  by_cases h0 : trimSpace (line.takeWhile (fun c => c ≠ '#')) = []
  · rw [if_pos h0]
    exact List.not_mem_nil _
  · rw [if_neg h0]
    by_cases hb :
        '[' ∈ trimSpace ((trimSpace (line.takeWhile (fun c => c ≠ '#'))).takeWhile
          (fun c => !(isCompChar c)))
    · rw [if_pos hb]
      intro hmem
      have h1 := mem_trimSpace hmem
      have h2 := List.mem_takeWhile_imp h1
      simp at h2
    · rw [if_neg hb]
      exact hb

/-- The kept lines of the pruning loop are exactly the input lines whose
decision is keep. -/
theorem pruneLines_fst (info : List (GoStr × PkgMeta)) (imp prot : List GoStr)
    (lines : List GoStr) :
    (pruneLines info imp prot lines).1 =
      lines.filter (fun l => decideLine info imp prot l == Decision.keep) := by
  induction lines with
  | nil => rfl
  | cons l ls ih =>
    simp only [pruneLines]
    cases h : decideLine info imp prot l with
    | keep => simp [List.filter_cons, h, ih]
    | remove => simp [List.filter_cons, h, ih]

/-- The removal count of the pruning loop counts the lines whose decision
is remove. -/
theorem pruneLines_snd (info : List (GoStr × PkgMeta)) (imp prot : List GoStr)
    (lines : List GoStr) :
    (pruneLines info imp prot lines).2 =
      lines.countP (fun l => decideLine info imp prot l == Decision.remove) := by
  induction lines with
  | nil => rfl
  | cons l ls ih =>
    simp only [pruneLines]
    cases h : decideLine info imp prot l with
    | keep => simp [List.countP_cons, h, ih]
    | remove => simp [List.countP_cons, h, ih]

/-- A true surface intersection in the claim's language gives the Bool test
of the source. -/
theorem surfaceUsed_of_exists {importedSet : List GoStr} {meta : PkgMeta}
    (h : ∃ n ∈ meta.importNames, n ∈ importedSet ∨ getRootModule n ∈ importedSet) :
    surfaceUsed importedSet meta = true := by
  obtain ⟨n, hn, hor⟩ := h
  unfold surfaceUsed
  rw [List.any_eq_true]
  refine ⟨n, hn, ?_⟩
  simp only [Bool.or_eq_true, List.contains_eq_any_beq, List.any_eq_true, beq_iff_eq]
  rcases hor with h1 | h1
  · exact Or.inl ⟨n, h1, rfl⟩
  · exact Or.inr ⟨getRootModule n, h1, rfl⟩

/-- A line whose lower-cased parsed name lies in the protected set is
kept. -/
theorem decideLine_keep_of_protected (info : List (GoStr × PkgMeta))
    (imp prot : List GoStr) (line : GoStr)
    (h : toLowerStr (parsePackageName line) ∈ prot) :
    decideLine info imp prot line = Decision.keep := by
  simp only [decideLine]
  simp
  intro h1 h2 h3 hnot
  exact absurd h hnot

/-! Claim theorems. -/

/-- C1: soundness of pruning. For every manifest line whose parsed package
name has a metadata entry in the fetched mapping, if some member of that
entry's import surface, or the root module of some member, is in
`importedSet`, then the pruning decision for the line is keep. -/
theorem prune_sound (info : List (GoStr × PkgMeta)) (importedSet protectedDeps : List GoStr)
    (line : GoStr) (meta : PkgMeta)
    (hmeta : lookupMeta info (parsePackageName line) = some meta)
    (hused : ∃ n ∈ meta.importNames, n ∈ importedSet ∨ getRootModule n ∈ importedSet) :
    decideLine info importedSet protectedDeps line = Decision.keep := by
  have hb := surfaceUsed_of_exists hused
  simp [decideLine, hmeta, hb]

/-- C1 witness: `requests==2.31.0` with surface `requests` imported is kept. -/
theorem prune_sound_witness :
    decideLine [(str "requests", ⟨[str "requests"], []⟩)] [str "requests"] []
      (str "requests==2.31.0") = Decision.keep :=
  prune_sound [(str "requests", ⟨[str "requests"], []⟩)] [str "requests"] []
    (str "requests==2.31.0") ⟨[str "requests"], []⟩ (by decide) (by decide)

/-- C2: one-hop dependency protection. If some manifest line A has a
metadata entry whose import surface (or a root of one of its members)
intersects `importedSet`, and that entry's direct-requires list contains
B's parsed name compared lower-cased, then B's line is kept when the
protected set is the one the engine builds. -/
theorem one_hop_protection (info : List (GoStr × PkgMeta)) (importedSet : List GoStr)
    (lineA lineB : GoStr) (metaA : PkgMeta)
    (hA : lookupMeta info (parsePackageName lineA) = some metaA)
    (hAu : ∃ n ∈ metaA.importNames, n ∈ importedSet ∨ getRootModule n ∈ importedSet)
    (hreq : ∃ dep ∈ metaA.requires, toLowerStr dep = toLowerStr (parsePackageName lineB)) :
    decideLine info importedSet (buildProtected info importedSet) lineB = Decision.keep := by
  have hmem : toLowerStr (parsePackageName lineB) ∈ buildProtected info importedSet := by
    obtain ⟨dep, hdep, hlow⟩ := hreq
    obtain ⟨e, he, he2⟩ : ∃ e, info.find? (fun e => e.1 == parsePackageName lineA) = some e ∧
        e.2 = metaA := by
      unfold lookupMeta at hA
      rcases Option.map_eq_some'.1 hA with ⟨e, h1, h2⟩
      exact ⟨e, h1, h2⟩
    have heinfo : e ∈ info := List.mem_of_find?_eq_some he
    unfold buildProtected
    rw [List.mem_flatMap]
    refine ⟨e, List.mem_filter.2 ⟨heinfo, ?_⟩, ?_⟩
    · rw [he2]
      exact surfaceUsed_of_exists hAu
    · rw [he2]
      exact List.mem_map.2 ⟨dep, hdep, hlow⟩
  exact decideLine_keep_of_protected info importedSet (buildProtected info importedSet) lineB hmem

/-- C2 witness: pydantic is imported and requires email-validator, so the
line `email-validator==2.0` is kept although its own surface never
matches. -/
theorem one_hop_protection_witness :
    decideLine
      [(str "pydantic", ⟨[str "pydantic"], [str "email-validator"]⟩),
       (str "email-validator", ⟨[str "email_validator"], []⟩)]
      [str "pydantic"]
      (buildProtected
        [(str "pydantic", ⟨[str "pydantic"], [str "email-validator"]⟩),
         (str "email-validator", ⟨[str "email_validator"], []⟩)]
        [str "pydantic"])
      (str "email-validator==2.0") = Decision.keep :=
  one_hop_protection
    [(str "pydantic", ⟨[str "pydantic"], [str "email-validator"]⟩),
     (str "email-validator", ⟨[str "email_validator"], []⟩)]
    [str "pydantic"] (str "pydantic[email]==2.0") (str "email-validator==2.0")
    ⟨[str "pydantic"], [str "email-validator"]⟩ (by decide) (by decide) (by decide)

/-- C4: conservation. The kept lines of the pruning loop are the very input
lines, in their original relative order: the output is a sublist of the
input. -/
theorem conservation (info : List (GoStr × PkgMeta)) (importedSet protectedDeps : List GoStr)
    (lines : List GoStr) :
    List.Sublist (pruneLines info importedSet protectedDeps lines).1 lines := by
  rw [pruneLines_fst]
  exact List.filter_sublist _

/-- C5: idempotence. Pruning the kept lines of a first run with the same
metadata mapping and imported set removes nothing, and a run that removed
nothing does not rewrite the manifest. -/
theorem tidy_idempotent (info : List (GoStr × PkgMeta)) (imp prot : List GoStr)
    (lines ns : List GoStr) (c : Nat)
    (h : pruneLines info imp prot lines = (ns, c)) :
    (pruneLines info imp prot ns).2 = 0 ∧ (c = 0 → shouldWrite c = false) := by
  constructor
  · have hns : ns = lines.filter (fun l => decideLine info imp prot l == Decision.keep) := by
      rw [← pruneLines_fst, h]
    rw [pruneLines_snd, hns, List.countP_eq_zero]
    intro a ha
    have h2 := (List.mem_filter.1 ha).2
    simp only [beq_iff_eq] at h2 ⊢
    simp [h2]
  · intro hc
    subst hc
    rfl

/-- C5 witness: a comment-only manifest is untouched by a second run and is
never rewritten. -/
theorem tidy_idempotent_witness :
    (pruneLines [] [] [] [str "# note"]).2 = 0 ∧ shouldWrite 0 = false := by
  have h := tidy_idempotent [] [] [] [str "# note"] [str "# note"] 0 (by decide)
  exact ⟨h.1, h.2 rfl⟩

/-- C3 counterexample: the line `Six` has a metadata entry whose surface
misses `importedSet`, is not protected, not allow-listed and has a
non-empty name, yet it is kept, because the case-insensitive literal
comparison against `importedSet` runs even when a metadata entry exists. -/
theorem fallback_cex :
    lookupMeta [(str "Six", ⟨[str "nomatch"], []⟩)] (parsePackageName (str "Six")) =
      some ⟨[str "nomatch"], []⟩ ∧
    surfaceUsed [str "six"] ⟨[str "nomatch"], []⟩ = false ∧
    (buildProtected [(str "Six", ⟨[str "nomatch"], []⟩)] [str "six"]).contains
      (toLowerStr (parsePackageName (str "Six"))) = false ∧
    parsePackageName (str "Six") ≠ [] ∧
    defaultIgnoreList.contains (toLowerStr (parsePackageName (str "Six"))) = false ∧
    decideLine [(str "Six", ⟨[str "nomatch"], []⟩)] [str "six"]
      (buildProtected [(str "Six", ⟨[str "nomatch"], []⟩)] [str "six"]) (str "Six") =
      Decision.keep := by
  decide

/-- C3 amended: a line with a metadata entry whose surface and roots miss
`importedSet`, whose lower-cased name is neither protected nor
allow-listed and whose parsed name is non-empty is removed only when its
literal name additionally fails the case-insensitive comparison against
every member of `importedSet`; only the exact-membership fallback is
restricted to lines without a metadata entry. -/
theorem fallback_amended (info : List (GoStr × PkgMeta))
    (importedSet protectedDeps : List GoStr) (line : GoStr) (meta : PkgMeta)
    (hmeta : lookupMeta info (parsePackageName line) = some meta)
    (hsurf : surfaceUsed importedSet meta = false)
    (hprot : protectedDeps.contains (toLowerStr (parsePackageName line)) = false)
    (hname : parsePackageName line ≠ [])
    (hallow : defaultIgnoreList.contains (toLowerStr (parsePackageName line)) = false)
    (hfold : importedSet.any (fun imported => eqFold imported (parsePackageName line)) = false) :
    decideLine info importedSet protectedDeps line = Decision.remove := by
  have hallow2 : toLowerStr (parsePackageName line) ∉ defaultIgnoreList := fun hm => by
    simp at hallow
    exact hallow hm
  have hprot2 : toLowerStr (parsePackageName line) ∉ protectedDeps := fun hm => by
    simp at hprot
    exact hprot hm
  simp only [decideLine]
  rw [hmeta]
  simp [hsurf, hfold, hname, hallow2, hprot2]

/-- C3 amended witness: an uninstalled-surface line with no literal match
of any case is removed. -/
theorem fallback_amended_witness :
    decideLine [(str "six", ⟨[str "nomatch"], []⟩)] [str "requests"] []
      (str "six==1.16.0") = Decision.remove :=
  fallback_amended [(str "six", ⟨[str "nomatch"], []⟩)] [str "requests"] []
    (str "six==1.16.0") ⟨[str "nomatch"], []⟩
    (by decide) (by decide) (by decide) (by decide) (by decide) (by decide)

/-- C6 counterexample: for the line `pydantic[email]==2.0` the name sent to
the resolver is already the stripped `pydantic`, the returned map is keyed
by `pydantic`, the bracketed string `pydantic[email]` keys no entry at
all, and the engine's lookup key (the parsed name) is the stripped name,
which differs from the bracketed string. -/
theorem extras_key_cex :
    buildReqPackages [str "pydantic[email]==2.0"] = [str "pydantic"] ∧
    (fetchPackageInfo (fun _ => none) (buildReqPackages [str "pydantic[email]==2.0"])).map
      Prod.fst = [str "pydantic"] ∧
    lookupMeta (fetchPackageInfo (fun _ => none) (buildReqPackages [str "pydantic[email]==2.0"]))
      (str "pydantic[email]") = none ∧
    lookupMeta (fetchPackageInfo (fun _ => none) (buildReqPackages [str "pydantic[email]==2.0"]))
      (parsePackageName (str "pydantic[email]==2.0")) =
      some ⟨[str "pydantic", str "pydantic"], []⟩ ∧
    parsePackageName (str "pydantic[email]==2.0") ≠ str "pydantic[email]" := by
  decide

/-- C6 amended: the extras suffix is stripped by the manifest parser before
the metadata request is built, so every requested name is bracket-free;
the returned map is keyed by exactly the requested (stripped) names, and
the engine's lookup key for a line is its parsed (stripped) name. -/
theorem extras_key_amended (env : GoStr → Option DistInfo) (lines : List GoStr) (name : GoStr)
    (h : name ∈ buildReqPackages lines) :
    (fetchPackageInfo env (buildReqPackages lines)).map Prod.fst = buildReqPackages lines ∧
    '[' ∉ name := by
  constructor
  · unfold fetchPackageInfo
    rw [List.map_map]
    have hcomp : (Prod.fst ∘ fun raw : GoStr => (raw, resolveOne env raw)) = id := rfl
    rw [hcomp, List.map_id]
  · obtain ⟨l, hl, hp⟩ := List.mem_filterMap.1 h
    by_cases hz : parsePackageName l = []
    · simp [hz] at hp
    · simp only [hz, if_false] at hp
      cases hp
      exact parsePackageName_no_bracket l

/-- C6 amended witness: the single line `pydantic[email]==2.0` produces the
request list `[pydantic]`, keyed back unchanged and bracket-free. -/
theorem extras_key_amended_witness :
    (fetchPackageInfo (fun _ => none) (buildReqPackages [str "pydantic[email]==2.0"])).map
      Prod.fst = buildReqPackages [str "pydantic[email]==2.0"] ∧
    '[' ∉ str "pydantic" :=
  extras_key_amended (fun _ => none) [str "pydantic[email]==2.0"] (str "pydantic") (by decide)

/-- C7: graceful degradation on metadata failure. A failed fetch yields the
empty metadata map, the protected set built from it is empty, and for
every non-blank, non-allow-listed line the decision is keep exactly when
the literal parsed name is in `importedSet` or case-insensitively equals
some member of it. -/
theorem metadata_failure_degrade (importedSet : List GoStr) (line : GoStr)
    (hname : parsePackageName line ≠ [])
    (hallow : defaultIgnoreList.contains (toLowerStr (parsePackageName line)) = false) :
    pkgInfoAfterFetch none = [] ∧
    buildProtected (pkgInfoAfterFetch none) importedSet = [] ∧
    (decideLine (pkgInfoAfterFetch none) importedSet
        (buildProtected (pkgInfoAfterFetch none) importedSet) line = Decision.keep ↔
      (importedSet.contains (parsePackageName line) = true ∨
        importedSet.any (fun imported => eqFold imported (parsePackageName line)) = true)) := by
  have hallow2 : toLowerStr (parsePackageName line) ∉ defaultIgnoreList := fun hm => by
    simp at hallow
    exact hallow hm
  refine ⟨rfl, rfl, ?_⟩
  simp only [decideLine, pkgInfoAfterFetch, Option.getD_none, lookupMeta, List.find?_nil,
    Option.map_none', buildProtected, List.filter_nil, List.flatMap_nil]
  cases hc : importedSet.contains (parsePackageName line) <;>
    cases ha : importedSet.any (fun imported => eqFold imported (parsePackageName line)) <;>
      simp [hc, ha, hname, hallow2]

/-- C7 witness: with an empty metadata map the line `six==1.16.0` is kept
because `six` is literally imported. -/
theorem metadata_failure_degrade_witness :
    decideLine (pkgInfoAfterFetch none) [str "six"]
      (buildProtected (pkgInfoAfterFetch none) [str "six"]) (str "six==1.16.0") =
      Decision.keep :=
  (metadata_failure_degrade [str "six"] (str "six==1.16.0") (by decide) (by decide)).2.2.mpr
    (Or.inl (by decide))

/-- Taking the root module twice is the same as taking it once. -/
theorem getRootModule_idem (m : GoStr) : getRootModule (getRootModule m) = getRootModule m := by
  unfold getRootModule
  exact List.takeWhile_idem

/-- One scan insertion preserves closure under roots: the root is inserted
together with the literal path. -/
theorem rootClosed_insert (s : List GoStr) (m : GoStr) (h : rootClosed s) :
    rootClosed (insertImport s m) := by
  intro x hx
  unfold insertImport at hx ⊢
  rw [List.mem_append] at hx
  rcases hx with hs | hnew
  · exact List.mem_append_left _ (h x hs)
  · rcases List.mem_cons.1 hnew with h1 | h2
    · subst h1
      refine List.mem_append_right _ ?_
      rw [getRootModule_idem]
      exact List.mem_cons_self _ _
    · rcases List.mem_cons.1 h2 with h3 | h4
      · subst h3
        exact List.mem_append_right _ (List.mem_cons_self _ _)
      · simp at h4

/-- C8: root-closure invariant of `importedSet`. From any state closed
under `getRootModule`, any number of further scan insertions leaves the
set closed: for every module path in the set its root module is in the
set, at every point during and after the scan. -/
theorem importedSet_root_closed (acc : List GoStr) (mods : List GoStr) (h : rootClosed acc) :
    rootClosed (List.foldl insertImport acc mods) := by
  induction mods generalizing acc with
  | nil => exact h
  | cons m ms ih =>
    rw [List.foldl_cons]
    exact ih (insertImport acc m) (rootClosed_insert acc m h)

/-- C8 witness: the scan of `os.path` and `requests` from the empty set
yields a root-closed imported set. -/
theorem importedSet_root_closed_witness :
    rootClosed (List.foldl insertImport [] [str "os.path", str "requests"]) :=
  importedSet_root_closed [] [str "os.path", str "requests"] (by decide)

/-- Every chunk produced by splitting at newlines is newline-free. -/
theorem splitNl_no_newline (s : GoStr) : ∀ l ∈ splitNl s, '\n' ∉ l := by
  induction s with
  | nil =>
    intro l hl
    simp [splitNl] at hl
    subst hl
    simp
  | cons c cs ih =>
    intro l hl
    simp only [splitNl] at hl
    split at hl
    · rcases List.mem_cons.1 hl with h1 | h2
      · subst h1
        simp
      · exact ih l h2
    · next hc =>
      split at hl
      · next hemp =>
        rcases List.mem_cons.1 hl with h1 | h2
        · subst h1
          intro hm
          rcases List.mem_cons.1 hm with he | hf
          · exact hc he.symm
          · simp at hf
        · simp at h2
      · next r rs hsp =>
        rcases List.mem_cons.1 hl with h1 | h2
        · subst h1
          intro hm
          rcases List.mem_cons.1 hm with he | hr
          · exact hc he.symm
          · exact ih r (by rw [hsp]; exact List.mem_cons_self _ _) hr
        · exact ih l (by rw [hsp]; exact List.mem_cons.2 (Or.inr h2))

/-- Every line produced by the manifest scanner is newline-free. -/
theorem scanLines_no_newline (content : GoStr) : ∀ l ∈ scanLines content, '\n' ∉ l := by
  intro l hl
  have key : ∀ y ∈ splitNl content, '\n' ∉ dropCR y := by
    intro y hy
    have hyn := splitNl_no_newline content y hy
    unfold dropCR
    split
    · intro hm
      exact hyn ((List.dropLast_sublist _).subset hm)
    · exact hyn
  unfold scanLines at hl
  split at hl
  · simp at hl
  · split at hl
    · obtain ⟨y, hy, hly⟩ := List.mem_map.1 hl
      have hy2 : y ∈ splitNl content := (List.dropLast_sublist _).subset hy
      exact hly ▸ key y hy2
    · obtain ⟨y, hy, hly⟩ := List.mem_map.1 hl
      exact hly ▸ key y hy

/-- A nonempty rewrite ends with a newline. -/
theorem writeOut_getLast : ∀ ns : List GoStr, ns ≠ [] → (writeOut ns).getLast? = some '\n'
  | [], h => absurd rfl h
  | l :: ls, _ => by
    unfold writeOut
    rw [List.flatMap_cons]
    by_cases hls : ls = []
    · subst hls
      simp
    · rw [List.getLast?_append]
      have h2 : (writeOut ls).getLast? = some '\n' := writeOut_getLast ls hls
      unfold writeOut at h2
      rw [h2]
      rfl

/-- C9 counterexample: a manifest whose single line `six` is removed does
trigger a rewrite, but the rewritten content is empty and hence does not
end with a newline. -/
theorem rewrite_newline_cex :
    scanLines (str "six") = [str "six"] ∧
    pruneLines [] [] [] (scanLines (str "six")) = ([], 1) ∧
    shouldWrite 1 = true ∧
    writeOut [] = [] ∧
    (writeOut []).getLast? ≠ some '\n' := by
  decide

/-- C9 amended: whenever the manifest is rewritten, every emitted record is
a kept line followed by exactly one newline (kept lines are
newline-free), and whenever at least one line is kept the rewritten
content ends with a newline, even when the original content had no
trailing newline; when every line is removed the rewritten content is
empty. -/
theorem rewrite_newline_amended (info : List (GoStr × PkgMeta)) (imp prot : List GoStr)
    (content : GoStr) (ns : List GoStr) (c : Nat)
    (h : pruneLines info imp prot (scanLines content) = (ns, c)) (_hc : 0 < c) :
    (∀ l ∈ ns, (l ++ ['\n']).count '\n' = 1) ∧
    (ns ≠ [] → (writeOut ns).getLast? = some '\n') := by
  constructor
  · intro l hl
    have hns : ns = (scanLines content).filter
        (fun x => decideLine info imp prot x == Decision.keep) := by
      rw [← pruneLines_fst, h]
    rw [hns] at hl
    have hmem : l ∈ scanLines content := (List.mem_filter.1 hl).1
    have hno : '\n' ∉ l := scanLines_no_newline content l hmem
    simp [List.count_append, List.count_eq_zero.2 hno]
  · exact writeOut_getLast ns

/-- C9 amended witness: removing `six` and keeping `# k` rewrites the file
as the kept line plus one final newline. -/
theorem rewrite_newline_amended_witness :
    (∀ l ∈ [str "# k"], (l ++ ['\n']).count '\n' = 1) ∧
    ([str "# k"] ≠ [] → (writeOut [str "# k"]).getLast? = some '\n') :=
  rewrite_newline_amended [] [] [] (str "# k\nsix") [str "# k"] 1 (by decide) (by decide)

/-- C10: case-insensitive dependency protection. The lower-cased parsed
name of a line is in the protected set the engine builds exactly when
some metadata entry is directly used and declares a requirement equal to
the parsed name up to case. -/
theorem protected_iff_lowercase (info : List (GoStr × PkgMeta)) (importedSet : List GoStr)
    (line : GoStr) :
    (buildProtected info importedSet).contains (toLowerStr (parsePackageName line)) = true ↔
    ∃ e ∈ info, surfaceUsed importedSet e.2 = true ∧
      ∃ dep ∈ e.2.requires, toLowerStr dep = toLowerStr (parsePackageName line) := by
  constructor
  · intro h
    have hm : toLowerStr (parsePackageName line) ∈ buildProtected info importedSet :=
      List.elem_iff.1 h
    unfold buildProtected at hm
    rw [List.mem_flatMap] at hm
    obtain ⟨e, he, hx⟩ := hm
    have he2 := List.mem_filter.1 he
    obtain ⟨dep, hdep, hlow⟩ := List.mem_map.1 hx
    exact ⟨e, he2.1, he2.2, dep, hdep, hlow⟩
  · intro hex
    obtain ⟨e, he, hs, dep, hdep, hlow⟩ := hex
    apply List.elem_iff.2
    unfold buildProtected
    rw [List.mem_flatMap]
    exact ⟨e, List.mem_filter.2 ⟨he, hs⟩, List.mem_map.2 ⟨dep, hdep, hlow⟩⟩

end Pigo
